import Mathlib

/-!
Verification of the core algorithms of the yt-chat-to-video renderer
(src/yt-chat-to-video.py).

Shallow-embedding conventions used throughout this file:
- Python numbers that carry times, sizes and coordinates are modelled as
  `ℚ`, `ℤ` and `ℕ`.  Every concrete value appearing in a theorem below is
  exactly representable as a binary double, and all differences that decide
  a comparison are far larger than double rounding error, so the `ℚ` model
  agrees with CPython float semantics at every evaluated point.
- Python lists become `List`, dicts become association lists, tuples become
  products or structures.
- External effects (network fetches, font metrics) become explicit oracle
  parameters; fallible operations return `Option`.
-/

namespace YtChat

/-! ### Frame-loop message cursor (src/yt-chat-to-video.py lines 725-742)

The main frame loop keeps `current_idx : ℤ` (initially `-1`) and for each
frame, with target time `time_ms`, runs

    if 0 <= current_idx < len(renderer_messages) and time_ms < renderer_messages[current_idx][0]:
        current_idx = -1
    while current_idx+1 < len(renderer_messages) and time_ms > renderer_messages[current_idx+1][0]:
        current_idx += 1

We model the message list by its list of timestamps (the `[0]` component of
each message tuple). -/

/-- Number of iterations of the `while` loop at src line 741-742 when the
candidate timestamps (those from position `current_idx+1` onward) are `rest`:
the loop steps over a leading timestamp exactly while `time_ms > ts`. -/
def advanceCount (t : ℚ) : List ℚ → ℕ
  | [] => 0
  | x :: xs => if t > x then advanceCount t xs + 1 else 0

/-- Final value of `j = current_idx + 1` after the `while` loop of src line
741-742, started with candidate position `j`. -/
def advanceNext (ts : List ℚ) (t : ℚ) (j : ℕ) : ℕ :=
  j + advanceCount t (ts.drop j)

/-- One per-frame cursor update (src lines 737-742): the backward-jump reset
followed by the forward `while` advance. -/
def updateCursor (ts : List ℚ) (t : ℚ) (cur : ℤ) : ℤ :=
  let curReset : ℤ :=
    if 0 ≤ cur ∧ cur < ts.length ∧ t < ts.getD cur.toNat 0 then -1 else cur
  (advanceNext ts t (curReset + 1).toNat : ℤ) - 1

/-- Target timestamp of frame `i` in linear mode (src line 734):
`time_ms = (start_time_seconds + (i / args.frame_rate)) * 1000`. -/
def frameTimeMs (start fps : ℚ) (i : ℕ) : ℚ :=
  (start + (i : ℚ) / fps) * 1000

/-- Cursor value after the pipeline has processed frames `0, 1, ..., n` in
linear mode, starting from `current_idx = -1` (src line 725). -/
def cursorAfterFrames (ts : List ℚ) (start fps : ℚ) : ℕ → ℤ
  | 0 => updateCursor ts (frameTimeMs start fps 0) (-1)
  | n + 1 => updateCursor ts (frameTimeMs start fps (n + 1)) (cursorAfterFrames ts start fps n)

theorem advanceCount_le_length (t : ℚ) (l : List ℚ) : advanceCount t l ≤ l.length := by
  induction l with
  | nil => simp [advanceCount]
  | cons x xs ih =>
    by_cases h : t > x
    · simp only [advanceCount, if_pos h, List.length_cons]
      omega
    · simp [advanceCount, if_neg h]

theorem advanceCount_stop (t : ℚ) (l : List ℚ)
    (h : advanceCount t l < l.length) : t ≤ l.getD (advanceCount t l) 0 := by
  induction l with
  | nil => simp at h
  | cons x xs ih =>
    by_cases hx : t > x
    · simp only [advanceCount, if_pos hx, List.length_cons] at h ⊢
      rw [List.getD_cons_succ]
      exact ih (by omega)
    · simp only [advanceCount, if_neg hx] at h ⊢
      rw [List.getD_cons_zero]
      exact le_of_not_lt hx

theorem advanceCount_passed (t : ℚ) (l : List ℚ) (k : ℕ)
    (h : k < advanceCount t l) : l.getD k 0 < t := by
  induction l generalizing k with
  | nil => simp [advanceCount] at h
  | cons x xs ih =>
    by_cases hx : t > x
    · simp only [advanceCount, if_pos hx] at h
      cases k with
      | zero => simpa using hx
      | succ k' =>
        rw [List.getD_cons_succ]
        exact ih k' (by omega)
    · simp [advanceCount, if_neg hx] at h

theorem getD_drop (l : List ℚ) : ∀ j k : ℕ, (l.drop j).getD k 0 = l.getD (j + k) 0 := by
  induction l with
  | nil => intro j k; simp
  | cons x xs ih =>
    intro j k
    cases j with
    | zero => simp
    | succ j' =>
      rw [List.drop_succ_cons, ih j' k]
      have : j' + 1 + k = (j' + k) + 1 := by omega
      rw [this, List.getD_cons_succ]

theorem countP_lt_cons_eq_zero (t x : ℚ) (xs : List ℚ) (hxt : ¬ x < t)
    (hx : ∀ a ∈ xs, x ≤ a) :
    (x :: xs).countP (fun y => decide (y < t)) = 0 := by
  rw [List.countP_eq_zero]
  intro a ha
  rcases List.mem_cons.mp ha with rfl | hmem
  · simpa using hxt
  · simpa using fun h => hxt (lt_of_le_of_lt (hx a hmem) h)

/-- On a non-decreasing timestamp list the `while` loop's step count is the
number of timestamps strictly below the target. -/
theorem advanceCount_eq_countP (t : ℚ) (l : List ℚ)
    (hs : List.Pairwise (· ≤ ·) l) :
    advanceCount t l = l.countP (fun y => decide (y < t)) := by
  induction l with
  | nil => simp [advanceCount]
  | cons x xs ih =>
    rcases List.pairwise_cons.mp hs with ⟨hx, hxs⟩
    by_cases hlt : t > x
    · rw [advanceCount, if_pos hlt, List.countP_cons_of_pos _ _ (by simpa using hlt), ih hxs]
    · rw [advanceCount, if_neg hlt, countP_lt_cons_eq_zero t x xs (fun h => hlt h) hx]

theorem getD_lt_of_lt_countP (t : ℚ) (l : List ℚ)
    (hs : List.Pairwise (· ≤ ·) l) (k : ℕ)
    (hk : k < l.countP (fun y => decide (y < t))) : l.getD k 0 < t := by
  induction l generalizing k with
  | nil => simp at hk
  | cons x xs ih =>
    rcases List.pairwise_cons.mp hs with ⟨hx, hxs⟩
    by_cases hxt : x < t
    · cases k with
      | zero => simpa using hxt
      | succ k' =>
        rw [List.getD_cons_succ]
        apply ih hxs
        rw [List.countP_cons_of_pos _ _ (by simpa using hxt)] at hk
        omega
    · rw [countP_lt_cons_eq_zero t x xs hxt hx] at hk
      omega

/-- Counting below a larger threshold decomposes as counting below a smaller
one plus counting (below the larger one) in the remainder. -/
theorem countP_lt_split (t1 t2 : ℚ) (h12 : t1 ≤ t2) (l : List ℚ)
    (hs : List.Pairwise (· ≤ ·) l) :
    l.countP (fun y => decide (y < t2)) =
      l.countP (fun y => decide (y < t1)) +
      (l.drop (l.countP (fun y => decide (y < t1)))).countP (fun y => decide (y < t2)) := by
  induction l with
  | nil => simp
  | cons x xs ih =>
    rcases List.pairwise_cons.mp hs with ⟨hx, hxs⟩
    by_cases hxt : x < t1
    · have hxt2 : x < t2 := lt_of_lt_of_le hxt h12
      rw [List.countP_cons_of_pos _ _ (by simpa using hxt2),
        List.countP_cons_of_pos _ _ (by simpa using hxt), List.drop_succ_cons, ih hxs]
      omega
    · rw [countP_lt_cons_eq_zero t1 x xs hxt hx]
      simp

theorem updateCursor_def (ts : List ℚ) (t : ℚ) (cur : ℤ) :
    updateCursor ts t cur =
      (advanceNext ts t
        (((if 0 ≤ cur ∧ cur < ts.length ∧ t < ts.getD cur.toNat 0 then -1 else cur) + 1).toNat) : ℤ)
        - 1 := rfl

/-- Starting from cursor −1, one update lands on (count of timestamps strictly
below the target) − 1. -/
theorem updateCursor_neg_one (ts : List ℚ) (t : ℚ)
    (hs : List.Pairwise (· ≤ ·) ts) :
    updateCursor ts t (-1) = (ts.countP (fun y => decide (y < t)) : ℤ) - 1 := by
  rw [updateCursor_def, if_neg (by omega)]
  have h0 : ((-1 : ℤ) + 1).toNat = 0 := rfl
  rw [h0]
  unfold advanceNext
  rw [List.drop_zero, advanceCount_eq_countP t ts hs]
  simp

/-- One cursor update at a later target, starting from the cursor position
reached at an earlier target, lands on the count for the later target. -/
theorem updateCursor_countP (ts : List ℚ) (t1 t2 : ℚ) (h12 : t1 ≤ t2)
    (hs : List.Pairwise (· ≤ ·) ts) :
    updateCursor ts t2 ((ts.countP (fun y => decide (y < t1)) : ℤ) - 1) =
      (ts.countP (fun y => decide (y < t2)) : ℤ) - 1 := by
  set c1 : ℕ := ts.countP (fun y => decide (y < t1)) with hc1
  have hc1len : c1 ≤ ts.length := by rw [hc1]; exact List.countP_le_length _
  rcases Nat.eq_zero_or_pos c1 with h0 | hpos
  · rw [h0]
    have h1 : (((0 : ℕ) : ℤ) - 1) = (-1 : ℤ) := by norm_num
    rw [h1]
    exact updateCursor_neg_one ts t2 hs
  · have hcur : ((c1 : ℤ) - 1).toNat = c1 - 1 := by omega
    have hgetd : ts.getD (c1 - 1) 0 < t1 := getD_lt_of_lt_countP t1 ts hs (c1 - 1) (by omega)
    rw [updateCursor_def, if_neg ?hneg]
    case hneg =>
      rw [hcur]
      rintro ⟨-, -, habs⟩
      exact absurd (lt_trans hgetd (lt_of_le_of_lt h12 habs)) (lt_irrefl _)
    have hj0 : ((c1 : ℤ) - 1 + 1).toNat = c1 := by omega
    rw [hj0]
    unfold advanceNext
    have hdropsorted : List.Pairwise (· ≤ ·) (ts.drop c1) := hs.sublist (List.drop_sublist c1 ts)
    rw [advanceCount_eq_countP t2 (ts.drop c1) hdropsorted]
    have := countP_lt_split t1 t2 h12 ts hs
    rw [← hc1] at this
    omega

/-- In linear mode, over a non-decreasing message list, the pipeline cursor
after frames `0..n` is precisely (number of timestamps strictly below the
frame-`n` target) − 1. -/
theorem cursorAfterFrames_linear (ts : List ℚ) (start fps : ℚ)
    (hs : List.Pairwise (· ≤ ·) ts) (hfps : 0 < fps) (n : ℕ) :
    cursorAfterFrames ts start fps n =
      (ts.countP (fun y => decide (y < frameTimeMs start fps n)) : ℤ) - 1 := by
  induction n with
  | zero => exact updateCursor_neg_one ts _ hs
  | succ n ih =>
    have hmono : frameTimeMs start fps n ≤ frameTimeMs start fps (n + 1) := by
      unfold frameTimeMs
      have hcast : (n : ℚ) ≤ ((n + 1 : ℕ) : ℚ) := by push_cast; linarith
      have hdiv : (n : ℚ) / fps ≤ ((n + 1 : ℕ) : ℚ) / fps :=
        (div_le_div_iff_of_pos_right hfps).mpr hcast
      linarith
    rw [cursorAfterFrames, ih]
    exact updateCursor_countP ts _ _ hmono hs

/-- Claim C1 (amended): after the per-frame cursor update, the cursor stays in
`[-1, length)`, the message at the cursor (if the cursor is nonnegative) has
timestamp at most the target, the next message (if any) has timestamp at least
the target, the `while` loop only steps over messages whose timestamp is
*strictly less* than the target, and in the concrete scenario of the claim
(3rd message at 5000 ms, fps = 10, start 0) the cursor after frame 50 is at
index 1 — the last message with timestamp strictly below the 5000 ms target —
not index 2. -/
theorem claim_C1_amended (ts : List ℚ) (t : ℚ) (cur : ℤ)
    (hlo : -1 ≤ cur) (hhi : cur < ts.length) :
    (-1 ≤ updateCursor ts t cur ∧ updateCursor ts t cur < ts.length) ∧
    (0 ≤ updateCursor ts t cur →
      ts.getD (updateCursor ts t cur).toNat 0 ≤ t) ∧
    (updateCursor ts t cur + 1 < ts.length →
      t ≤ ts.getD (updateCursor ts t cur + 1).toNat 0) ∧
    (∀ j k : ℕ, j ≤ k → k < advanceNext ts t j → ts.getD k 0 < t) ∧
    cursorAfterFrames [1000, 2000, 5000, 7000] 0 10 50 = 1 := by
  have passedGen : ∀ j k : ℕ, j ≤ k → k < advanceNext ts t j → ts.getD k 0 < t := by
    intro j k hjk hk
    unfold advanceNext at hk
    have h1 : k - j < advanceCount t (ts.drop j) := by omega
    have h2 := advanceCount_passed t (ts.drop j) (k - j) h1
    rwa [getD_drop, Nat.add_sub_cancel' hjk] at h2
  set curReset : ℤ :=
    if 0 ≤ cur ∧ cur < ts.length ∧ t < ts.getD cur.toNat 0 then -1 else cur with hcr
  have hcrlo : -1 ≤ curReset := by
    rw [hcr]; split <;> omega
  have hcrhi : curReset < ts.length := by
    rw [hcr]; split <;> omega
  have hcrprop : curReset = -1 ∨ (0 ≤ curReset ∧ curReset = cur ∧ ts.getD cur.toNat 0 ≤ t) := by
    rw [hcr]; split
    · exact Or.inl rfl
    · rename_i hneg
      rcases le_or_lt 0 cur with hcge | hclt
      · right
        refine ⟨hcge, rfl, ?_⟩
        by_contra hltc
        exact hneg ⟨hcge, hhi, lt_of_not_le hltc⟩
      · left; omega
  have huc : updateCursor ts t cur = (advanceNext ts t (curReset + 1).toNat : ℤ) - 1 := by
    rw [hcr]; rfl
  set j0 : ℕ := (curReset + 1).toNat with hj0
  set c : ℕ := advanceCount t (ts.drop j0) with hcdef
  have hadv : advanceNext ts t j0 = j0 + c := rfl
  have hj0len : j0 ≤ ts.length := by omega
  have hclen : c ≤ ts.length - j0 := by
    have hle := advanceCount_le_length t (ts.drop j0)
    rw [← hcdef, List.length_drop] at hle
    exact hle
  have hucval : updateCursor ts t cur = (j0 : ℤ) + c - 1 := by
    rw [huc, hadv]; push_cast; ring
  have hconc : cursorAfterFrames [1000, 2000, 5000, 7000] 0 10 50 = 1 := by
    have h50 : frameTimeMs 0 10 50 = 5000 := by unfold frameTimeMs; norm_num
    have heq := cursorAfterFrames_linear [1000, 2000, 5000, 7000] 0 10 (by decide) (by norm_num) 50
    rw [h50] at heq
    rw [heq]
    decide
  refine ⟨⟨by omega, by omega⟩, ?_, ?_, passedGen, hconc⟩
  · -- message at cursor has timestamp ≤ target
    intro hnn
    rcases Nat.eq_zero_or_pos c with hc0 | hcpos
    · -- no advance: cursor = curReset, which survived the reset check
      have hj0pos : 1 ≤ j0 := by omega
      rcases hcrprop with h1 | ⟨hge, heq, hle⟩
      · exfalso; omega
      · have huceq : updateCursor ts t cur = cur := by omega
        rw [huceq, ← heq]
        have hnat : curReset.toNat = cur.toNat := by rw [heq]
        rw [heq]
        exact hle
    · -- the loop advanced: the final position was stepped over strictly below t
      have hk : j0 ≤ j0 + c - 1 := by omega
      have hk2 : j0 + c - 1 < advanceNext ts t j0 := by rw [hadv]; omega
      have hpass := passedGen j0 (j0 + c - 1) hk hk2
      have htn : (updateCursor ts t cur).toNat = j0 + c - 1 := by omega
      rw [htn]
      exact le_of_lt hpass
  · -- next message (if any) has timestamp ≥ target
    intro hltlen
    have hcts : c < (ts.drop j0).length := by
      rw [List.length_drop]; omega
    rw [hcdef] at hcts
    have hstop := advanceCount_stop t (ts.drop j0) hcts
    rw [← hcdef, getD_drop] at hstop
    have htn : (updateCursor ts t cur + 1).toNat = j0 + c := by omega
    rwa [htn]

/-- Claim C1 as stated is false on the code: with messages at 1000, 2000,
5000, 7000 ms (the 3rd message, 0-based index 2, at 5000 ms), fps = 10 and
start time 0, after processing frame index 50 (target t = 5.0 s = 5000 ms)
the cursor is at index 1 — not at or past index 2 — because the `while` loop
at src line 741 advances only while `time_ms >` the next timestamp (strictly),
so it stops short of a message whose timestamp equals the target. -/
theorem claim_C1_counterexample :
    cursorAfterFrames [1000, 2000, 5000, 7000] 0 10 50 = 1 ∧
    ¬ (2 ≤ cursorAfterFrames [1000, 2000, 5000, 7000] 0 10 50) := by
  have h50 : frameTimeMs 0 10 50 = 5000 := by unfold frameTimeMs; norm_num
  have heq := cursorAfterFrames_linear [1000, 2000, 5000, 7000] 0 10 (by decide) (by norm_num) 50
  rw [h50] at heq
  rw [heq]
  exact ⟨by decide, by decide⟩

/-- Witness instantiating the amended C1 theorem at a concrete input. -/
theorem claim_C1_amended_witness :
    (-1 : ℤ) ≤ 1 ∧ (1 : ℤ) < ([(1000 : ℚ), 2000, 5000, 7000].length : ℤ) ∧
    (0 ≤ updateCursor [1000, 2000, 5000, 7000] 2500 1 →
      [(1000 : ℚ), 2000, 5000, 7000].getD (updateCursor [1000, 2000, 5000, 7000] 2500 1).toNat 0 ≤ 2500) := by
  refine ⟨by decide, by decide, ?_⟩
  exact (claim_C1_amended [1000, 2000, 5000, 7000] 2500 1 (by decide) (by decide)).2.1

/-- Claim C2: when the frame's target timestamp is strictly less than the
timestamp of the message at the current cursor (a backward jump under a
non-monotonic TimeMapper), the update of src lines 738-742 resets the cursor
to −1 and re-advances it from the start of the message list within that same
frame, and the resulting cursor again satisfies the at-or-before-target
property (the message at the cursor, if any, has timestamp ≤ target). -/
theorem claim_C2 (ts : List ℚ) (t : ℚ) (cur : ℤ)
    (h0 : 0 ≤ cur) (hlen : cur < ts.length)
    (hback : t < ts.getD cur.toNat 0) :
    updateCursor ts t cur = (advanceNext ts t 0 : ℤ) - 1 ∧
    (0 ≤ updateCursor ts t cur → ts.getD (updateCursor ts t cur).toNat 0 ≤ t) := by
  have hstep : updateCursor ts t cur = (advanceNext ts t 0 : ℤ) - 1 := by
    rw [updateCursor_def, if_pos ⟨h0, hlen, hback⟩]
    rfl
  refine ⟨hstep, ?_⟩
  intro hnn
  rw [hstep] at hnn ⊢
  unfold advanceNext at hnn ⊢
  rw [List.drop_zero] at hnn ⊢
  set c := advanceCount t ts with hc
  have hcpos : 1 ≤ c := by omega
  have hpass := advanceCount_passed t ts (c - 1) (by omega)
  have htn : (((0 + c : ℕ) : ℤ) - 1).toNat = c - 1 := by omega
  rw [htn]
  exact le_of_lt hpass

/-- Witness for C2 at a concrete backward jump: messages at 1000 and 2000 ms,
cursor at index 1, target 500 ms; the cursor resets and lands at −1. -/
theorem claim_C2_witness :
    updateCursor [1000, 2000] 500 1 = -1 := by
  have h := (claim_C2 [1000, 2000] 500 1 (by decide) (by decide) (by decide)).1
  rw [h]
  decide

/-! ### EDL TimeMapper (src/yt-chat-to-video.py lines 218-240) -/

/-- Loop body of `TimeMapper.get_source_time` (src lines 231-238): walk the
segment list accumulating per-segment durations until the target elapsed time
falls inside a segment; `none` models the `for` loop falling through. -/
def sourceTimeGo (target : ℚ) : ℚ → List (ℚ × ℚ) → Option ℚ
  | _, [] => none
  | elapsed, (s, e) :: rest =>
    if elapsed + (e - s) > target then some (s + (target - elapsed))
    else sourceTimeGo target (elapsed + (e - s)) rest

/-- `TimeMapper.get_source_time` (src lines 225-240).  The fall-through case
returns `self.segments[-1][1]`; `none` models the `IndexError` Python would
raise there on an empty segment list (the constructor site at src line 691
only builds a `TimeMapper` from a non-empty list). -/
def get_source_time (segments : List (ℚ × ℚ)) (fps : ℚ) (idx : ℕ) : Option ℚ :=
  match sourceTimeGo ((idx : ℚ) / fps) 0 segments with
  | some v => some v
  | none => segments.getLast?.map Prod.snd

/-- `TimeMapper.total_duration` (src line 223). -/
def total_duration (segments : List (ℚ × ℚ)) : ℚ :=
  (segments.map (fun se => se.2 - se.1)).sum

theorem total_duration_nonneg (segments : List (ℚ × ℚ))
    (h : ∀ p ∈ segments, p.1 ≤ p.2) : 0 ≤ total_duration segments := by
  induction segments with
  | nil => simp [total_duration]
  | cons p rest ih =>
    have hp := h p (List.mem_cons_self p rest)
    have hr := ih (fun q hq => h q (List.mem_cons_of_mem p hq))
    unfold total_duration at hr ⊢
    rw [List.map_cons, List.sum_cons]
    linarith

theorem sourceTimeGo_none (target : ℚ) (segments : List (ℚ × ℚ))
    (hord : ∀ p ∈ segments, p.1 ≤ p.2) :
    ∀ elapsed : ℚ, elapsed + total_duration segments ≤ target →
      sourceTimeGo target elapsed segments = none := by
  induction segments with
  | nil => intro elapsed h; rfl
  | cons p rest ih =>
    intro elapsed h
    obtain ⟨s, e⟩ := p
    have hrest : 0 ≤ total_duration rest :=
      total_duration_nonneg rest (fun q hq => hord q (List.mem_cons_of_mem _ hq))
    have htot : total_duration ((s, e) :: rest) = (e - s) + total_duration rest := by
      unfold total_duration
      rw [List.map_cons, List.sum_cons]
    rw [htot] at h
    rw [sourceTimeGo, if_neg (by push_neg; linarith)]
    exact ih (fun q hq => hord q (List.mem_cons_of_mem _ hq)) (elapsed + (e - s)) (by linarith)

theorem sourceTimeGo_append (target : ℚ) (pre segs : List (ℚ × ℚ))
    (hord : ∀ p ∈ pre, p.1 ≤ p.2) :
    ∀ elapsed : ℚ, elapsed + total_duration pre ≤ target →
      sourceTimeGo target elapsed (pre ++ segs) =
        sourceTimeGo target (elapsed + total_duration pre) segs := by
  induction pre with
  | nil =>
    intro elapsed h
    have h0 : total_duration ([] : List (ℚ × ℚ)) = 0 := rfl
    rw [h0, add_zero, List.nil_append]
  | cons p rest ih =>
    intro elapsed h
    obtain ⟨s, e⟩ := p
    have hrest : 0 ≤ total_duration rest :=
      total_duration_nonneg rest (fun q hq => hord q (List.mem_cons_of_mem _ hq))
    have htot : total_duration ((s, e) :: rest) = (e - s) + total_duration rest := by
      unfold total_duration
      rw [List.map_cons, List.sum_cons]
    rw [htot] at h ⊢
    rw [List.cons_append, sourceTimeGo, if_neg (by push_neg; linarith)]
    have := ih (fun q hq => hord q (List.mem_cons_of_mem _ hq)) (elapsed + (e - s)) (by linarith)
    rw [this]
    ring_nf

/-- Claim C4: for a TimeMapper over a non-empty list of ordered segments and a
positive frame rate, `get_source_time` (i) maps frame 0 to the first segment's
`source_in`; (ii) clamps any frame at or past the end of all segments to the
final segment's `source_out` (without raising); (iii) maps a frame whose
elapsed linear time falls within a segment to that segment's `source_in` plus
the elapsed time within the segment; and (iv) for a single segment `[10, 20)`
at 10 fps, frame 50 maps to source time 15. -/
theorem claim_C4 (segments : List (ℚ × ℚ)) (fps : ℚ)
    (hne : segments ≠ []) (hord : ∀ p ∈ segments, p.1 < p.2) (hfps : 0 < fps) :
    (get_source_time segments fps 0 = segments.head?.map Prod.fst) ∧
    (∀ idx : ℕ, total_duration segments ≤ (idx : ℚ) / fps →
      get_source_time segments fps idx = segments.getLast?.map Prod.snd) ∧
    (∀ (idx : ℕ) (pre : List (ℚ × ℚ)) (s e : ℚ) (post : List (ℚ × ℚ)),
      segments = pre ++ (s, e) :: post →
      total_duration pre ≤ (idx : ℚ) / fps →
      (idx : ℚ) / fps < total_duration pre + (e - s) →
      get_source_time segments fps idx = some (s + ((idx : ℚ) / fps - total_duration pre))) ∧
    get_source_time [(10, 20)] 10 50 = some 15 := by
  have hin : ∀ (idx : ℕ) (pre : List (ℚ × ℚ)) (s e : ℚ) (post : List (ℚ × ℚ)),
      segments = pre ++ (s, e) :: post →
      total_duration pre ≤ (idx : ℚ) / fps →
      (idx : ℚ) / fps < total_duration pre + (e - s) →
      get_source_time segments fps idx = some (s + ((idx : ℚ) / fps - total_duration pre)) := by
    intro idx pre s e post hseg hlo hhi
    have hpre : ∀ p ∈ pre, p.1 ≤ p.2 := by
      intro p hp
      exact le_of_lt (hord p (by rw [hseg]; exact List.mem_append_left _ hp))
    unfold get_source_time
    rw [hseg, sourceTimeGo_append _ pre _ hpre 0 (by linarith), sourceTimeGo,
      if_pos (by linarith)]
    have : s + ((idx : ℚ) / fps - (0 + total_duration pre)) =
        s + ((idx : ℚ) / fps - total_duration pre) := by ring
    rw [this]
  refine ⟨?_, ?_, hin, ?_⟩
  · -- frame 0 lands on the first segment's source_in
    obtain ⟨p, tl, rfl⟩ := List.exists_cons_of_ne_nil hne
    obtain ⟨s0, e0⟩ := p
    have h0 : ((0 : ℕ) : ℚ) / fps = 0 := by norm_num
    have := hin 0 [] s0 e0 tl rfl (by rw [h0]; exact le_of_eq rfl)
      (by
        rw [h0]
        have := hord (s0, e0) (List.mem_cons_self _ _)
        have htd : total_duration ([] : List (ℚ × ℚ)) = 0 := rfl
        rw [htd]
        simpa using by linarith [this])
    rw [this, h0]
    have htd : total_duration ([] : List (ℚ × ℚ)) = 0 := rfl
    rw [htd]
    norm_num
  · -- past the end of all segments: clamp to the last source_out
    intro idx hpast
    unfold get_source_time
    rw [sourceTimeGo_none ((idx : ℚ) / fps) segments (fun p hp => le_of_lt (hord p hp)) 0
      (by linarith)]
  · -- single segment [10, 20) at 10 fps, frame 50 ↦ 15
    have hcond : (0 : ℚ) + ((20 : ℚ) - 10) > ((50 : ℕ) : ℚ) / 10 := by push_cast; norm_num
    unfold get_source_time
    rw [sourceTimeGo, if_pos hcond]
    have : (10 : ℚ) + (((50 : ℕ) : ℚ) / 10 - 0) = 15 := by push_cast; norm_num
    rw [this]

/-- Witness instantiating C4 on the single segment `[10, 20)` at 10 fps. -/
theorem claim_C4_witness :
    get_source_time [(10, 20)] 10 50 = some 15 ∧
    get_source_time [(10, 20)] 10 0 = some 10 := by
  have h := claim_C4 [(10, 20)] 10 (by decide) (by decide) (by norm_num)
  refine ⟨h.2.2.2, ?_⟩
  rw [h.1]
  decide

/-! ### LayoutEngine backward walk (src/yt-chat-to-video.py lines 283-401)

`draw_chat` walks messages backward from the cursor, computing a block height
per message and collecting blocks while they fit:

    y = self.height
    for i in range(current_message_index, -1, -1):
        ... message_height = ...
        if self.args.no_clip and (y - message_height < 0):
            break
        layout.append({...})
        y -= message_height
        if not self.args.no_clip and y < 0:
            break

The render pass then re-runs `curr_y = self.height; curr_y -= item['h']` over
the collected blocks, so each block's top absolute pixel offset is exactly the
running `y` value after its own subtraction.  Block heights come from font
metrics and word wrap (PIL calls), so they enter the model as an oracle
`heights : ℕ → ℤ`; the boundary policy is `args.no_clip` (default `True`,
i.e. complete-only mode — `--no-clip` stores `False`, src line 584). -/

/-- Per-message block height formula (src lines 347-359), with the number of
wrapped lines and the style metrics as inputs. -/
def messageHeight (avatarSize authorFontSize messageFontSize lineHeight paddingV : ℤ)
    (numLines : ℕ) : ℤ :=
  if numLines = 1 then max (max avatarSize authorFontSize) messageFontSize + paddingV * 2
  else (numLines : ℤ) * lineHeight + paddingV * 2

/-- Top pixel offsets of the blocks collected by the backward walk, in append
order (bottom-most block first, topmost block last).  `i` is the walk's
current message index, `y` the running bottom coordinate. -/
def layoutTops (heights : ℕ → ℤ) (noClip : Bool) : ℕ → ℤ → List ℤ
  | 0, y =>
    if noClip = true ∧ y - heights 0 < 0 then []
    else [y - heights 0]
  | i' + 1, y =>
    if noClip = true ∧ y - heights (i' + 1) < 0 then []
    else if noClip = false ∧ y - heights (i' + 1) < 0 then [y - heights (i' + 1)]
    else (y - heights (i' + 1)) :: layoutTops heights noClip i' (y - heights (i' + 1))

/-- The walk as invoked by `draw_chat(cursor)`: with cursor −1 the Python
`range(-1, -1, -1)` is empty and no block is laid out. -/
def drawChatTops (heights : ℕ → ℤ) (noClip : Bool) (cursor : ℤ) (height : ℤ) : List ℤ :=
  if cursor < 0 then [] else layoutTops heights noClip cursor.toNat height

theorem layoutTops_complete_nonneg (heights : ℕ → ℤ) :
    ∀ (i : ℕ) (y : ℤ), ∀ t ∈ layoutTops heights true i y, 0 ≤ t := by
  intro i
  induction i with
  | zero =>
    intro y t ht
    by_cases hf : y - heights 0 < 0
    · rw [layoutTops, if_pos ⟨rfl, hf⟩] at ht
      simp at ht
    · rw [layoutTops, if_neg (by simp [hf])] at ht
      simp at ht
      omega
  | succ i' ih =>
    intro y t ht
    by_cases hf : y - heights (i' + 1) < 0
    · rw [layoutTops, if_pos ⟨rfl, hf⟩] at ht
      simp at ht
    · rw [layoutTops, if_neg (by simp [hf]), if_neg (by simp)] at ht
      rcases List.mem_cons.mp ht with rfl | hmem
      · omega
      · exact ih _ t hmem

theorem layoutTops_clip_ne_nil (heights : ℕ → ℤ) (i : ℕ) (y : ℤ) :
    layoutTops heights false i y ≠ [] := by
  cases i with
  | zero =>
    rw [layoutTops, if_neg (by simp)]
    simp
  | succ i' =>
    rw [layoutTops, if_neg (by simp)]
    by_cases hf : y - heights (i' + 1) < 0
    · rw [if_pos ⟨rfl, hf⟩]; simp
    · rw [if_neg (by simp [hf])]; simp

theorem layoutTops_clip_dropLast_nonneg (heights : ℕ → ℤ) :
    ∀ (i : ℕ) (y : ℤ), ∀ t ∈ (layoutTops heights false i y).dropLast, 0 ≤ t := by
  intro i
  induction i with
  | zero =>
    intro y t ht
    rw [layoutTops, if_neg (by simp)] at ht
    simp at ht
  | succ i' ih =>
    intro y t ht
    by_cases hf : y - heights (i' + 1) < 0
    · rw [layoutTops, if_neg (by simp), if_pos ⟨rfl, hf⟩] at ht
      simp at ht
    · rw [layoutTops, if_neg (by simp), if_neg (by simp [hf])] at ht
      obtain ⟨r, rs, hrr⟩ :=
        List.exists_cons_of_ne_nil (layoutTops_clip_ne_nil heights i' (y - heights (i' + 1)))
      rw [hrr, List.dropLast_cons₂] at ht
      rcases List.mem_cons.mp ht with rfl | hmem
      · omega
      · exact ih (y - heights (i' + 1)) t (by rw [hrr]; exact hmem)

theorem layoutTops_clip_countP (heights : ℕ → ℤ) :
    ∀ (i : ℕ) (y : ℤ),
      (layoutTops heights false i y).countP (fun t => decide (t < 0)) ≤ 1 := by
  intro i
  induction i with
  | zero =>
    intro y
    rw [layoutTops, if_neg (by simp)]
    exact le_trans (List.countP_le_length _) (by simp)
  | succ i' ih =>
    intro y
    by_cases hf : y - heights (i' + 1) < 0
    · rw [layoutTops, if_neg (by simp), if_pos ⟨rfl, hf⟩]
      exact le_trans (List.countP_le_length _) (by simp)
    · rw [layoutTops, if_neg (by simp), if_neg (by simp [hf]),
        List.countP_cons_of_neg _ _ (by simpa using hf)]
      exact ih (y - heights (i' + 1))

/-- Claim C5: in complete-only mode (`no_clip = True`, the default) the layout
produced by a single `draw_chat` call never contains a block whose top
absolute pixel offset is negative; in clip-allowed mode the layout contains at
most one block with a negative top offset, and any such block is the topmost
(last collected) one — every block before the last has a nonnegative top. -/
theorem claim_C5 (heights : ℕ → ℤ) (cursor : ℤ) (height : ℤ) :
    (∀ t ∈ drawChatTops heights true cursor height, 0 ≤ t) ∧
    (drawChatTops heights false cursor height).countP (fun t => decide (t < 0)) ≤ 1 ∧
    (∀ t ∈ (drawChatTops heights false cursor height).dropLast, 0 ≤ t) := by
  unfold drawChatTops
  by_cases hc : cursor < 0
  · rw [if_pos hc, if_pos hc]
    refine ⟨by simp, by simp, by simp⟩
  · rw [if_neg hc, if_neg hc]
    exact ⟨layoutTops_complete_nonneg heights cursor.toNat height,
      layoutTops_clip_countP heights cursor.toNat height,
      layoutTops_clip_dropLast_nonneg heights cursor.toNat height⟩

/-- Witness instantiating C5 with three 40-pixel blocks on a 100-pixel canvas:
complete-only mode lays out tops `[60, 20]` (all nonnegative), clip-allowed
mode lays out `[60, 20, -20]` (only the topmost negative). -/
theorem claim_C5_witness :
    (0 : ℤ) ≤ 60 ∧
    (drawChatTops (fun _ => 40) false 2 100).countP (fun t => decide (t < 0)) ≤ 1 ∧
    (0 : ℤ) ≤ 20 := by
  have h := claim_C5 (fun _ => 40) 2 100
  exact ⟨h.1 60 (by decide), h.2.1, h.2.2 20 (by decide)⟩

/-! ### FramePipeline frame-size check (src/yt-chat-to-video.py lines 719-771) -/

/-- The configuration fields that determine frame-buffer sizes. -/
structure RenderArgs where
  width : ℕ
  height : ℕ
  transparent : Bool

/-- Bytes per pixel of the raw output: 4 (`rgba`) in transparent mode, 3
(`rgb24`) otherwise (src lines 483 and 765). -/
def bytesPerPixel (a : RenderArgs) : ℕ := if a.transparent then 4 else 3

/-- The canvas created by `ChatRenderer.update_style` (src lines 258-265): an
RGBA (transparent) or RGB image of exactly `args.width × args.height`.  Only
the data determining the `tobytes()` length is modelled. -/
structure Canvas where
  width : ℕ
  height : ℕ
  channels : ℕ

def mkCanvas (a : RenderArgs) : Canvas :=
  ⟨a.width, a.height, if a.transparent then 4 else 3⟩

/-- Length of `img.tobytes()` (PIL: width · height · channels for RGB/RGBA
raster data). -/
def tobytesLen (c : Canvas) : ℕ := c.width * c.height * c.channels

/-- `draw_chat` draws in place on `self.img` and returns it (src lines
283-401); the canvas dimensions and mode never change after `update_style`. -/
def drawChatCanvas (a : RenderArgs) : Canvas := mkCanvas a

/-- `expected_size` of src line 765:
`args.width * args.height * (4 if args.transparent else 3)`. -/
def expected_size (a : RenderArgs) : ℕ :=
  a.width * a.height * (if a.transparent then 4 else 3)

/-- The tail of one frame-loop iteration (src lines 761-771): compare the
produced buffer's byte length against `expected_size`; on mismatch raise
(flag `true`) without extending the write stream, otherwise append the
buffer to the encoder's input stream. -/
def frameWriteStep (a : RenderArgs) (imgLen : ℕ) (writes : List ℕ) : List ℕ × Bool :=
  if imgLen ≠ expected_size a then (writes, true) else (writes ++ [imgLen], false)

/-- Byte lengths written to the encoder after `n` frames of the loop, each
frame rendering on the renderer's canvas (src line 761). -/
def pipelineWrites (a : RenderArgs) : ℕ → List ℕ
  | 0 => []
  | n + 1 => (frameWriteStep a (tobytesLen (drawChatCanvas a)) (pipelineWrites a n)).1

/-- Claim C6: every frame buffer emitted by the pipeline has length exactly
`width · height · bytes-per-pixel` (4 in transparent mode, 3 otherwise), and
whenever a produced buffer's length differs from the expected size, the step
raises and nothing is written to the encoder's input stream. -/
theorem claim_C6 (a : RenderArgs) (n : ℕ) (imgLen : ℕ) (writes : List ℕ)
    (hmismatch : imgLen ≠ expected_size a) :
    pipelineWrites a n = List.replicate n (a.width * a.height * bytesPerPixel a) ∧
    frameWriteStep a imgLen writes = (writes, true) := by
  constructor
  · have hexp : tobytesLen (drawChatCanvas a) = expected_size a := rfl
    have hbpp : expected_size a = a.width * a.height * bytesPerPixel a := rfl
    induction n with
    | zero => rfl
    | succ m ih =>
      rw [pipelineWrites, frameWriteStep, hexp, if_neg (by simp), ih, hbpp,
        ← List.replicate_succ']
  · rw [frameWriteStep, if_pos hmismatch]

/-- Witness instantiating C6: a 4×2 opaque frame (expected 24 bytes) over
three frames, and a mismatching 7-byte buffer that raises without writing. -/
theorem claim_C6_witness :
    pipelineWrites ⟨4, 2, false⟩ 3 = List.replicate 3 24 ∧
    frameWriteStep ⟨4, 2, false⟩ 7 [24] = ([24], true) := by
  have h := claim_C6 ⟨4, 2, false⟩ 3 7 [24] (by decide)
  exact ⟨h.1, h.2⟩

/-! ### Python string helpers over `List Char`

Python `str` values are modelled as `List Char`.  Only the semantics the
source actually exercises (ASCII input) are modelled; on ASCII strings these
agree with CPython. -/

/-- Python whitespace (`str.strip()` / `str.split()` with no argument). -/
def isSpaceChar (c : Char) : Bool :=
  c == ' ' || c == '\t' || c == '\n' || c == '\r' || c == '\x0b' || c == '\x0c'

/-- Python `str.strip()`. -/
def pyStrip (l : List Char) : List Char :=
  ((l.dropWhile isSpaceChar).reverse.dropWhile isSpaceChar).reverse

/-- Python `str.split()` with no separator: split on whitespace runs,
discarding empty fields. -/
def pySplitWs (l : List Char) : List (List Char) :=
  (l.splitOnP isSpaceChar).filter (fun w => !w.isEmpty)

/-- Python `str.isdigit()` on ASCII input: nonempty, all decimal digits. -/
def pyIsDigit (l : List Char) : Bool :=
  !l.isEmpty && l.all Char.isDigit

def digitsToNat (l : List Char) : ℕ :=
  l.foldl (fun acc c => acc * 10 + (c.toNat - '0'.toNat)) 0

/-- CPython `int(str)` on ASCII input: optional surrounding whitespace, an
optional sign, then one or more decimal digits; anything else raises
`ValueError`, modelled as `none`.  (Underscore digit grouping and non-ASCII
digits never occur in EDL timecodes and are not modelled.) -/
def pyInt (l : List Char) : Option ℤ :=
  let s := pyStrip l
  match s with
  | '-' :: rest =>
    if rest ≠ [] ∧ rest.all Char.isDigit then some (-(digitsToNat rest : ℤ)) else none
  | '+' :: rest =>
    if rest ≠ [] ∧ rest.all Char.isDigit then some ((digitsToNat rest : ℤ)) else none
  | _ =>
    if s ≠ [] ∧ s.all Char.isDigit then some ((digitsToNat s : ℤ)) else none

/-- Python `map(int, parts)` under the caller's `try`: the first `ValueError`
aborts the whole conversion (`none`). -/
def parseIntList : List (List Char) → Option (List ℤ)
  | [] => some []
  | p :: ps =>
    match pyInt p, parseIntList ps with
    | some v, some vs => some (v :: vs)
    | _, _ => none

/-! ### EDL timecode conversion (src/yt-chat-to-video.py lines 148-162) -/

/-- `EDLParser.timecode_to_seconds`: `HH:MM:SS:FF` (frames at an assumed 30
fps base) or `HH:MM:SS`; any `ValueError` from `int()`, or a field count
other than 3 or 4, yields 0.0 instead of raising. -/
def timecode_to_seconds (tc : List Char) : ℚ :=
  let parts := tc.splitOn ':'
  if parts.length = 4 then
    match parseIntList parts with
    | some [h, m, s, f] => ((h * 3600 + m * 60 + s : ℤ) : ℚ) + (f : ℚ) / 30
    | _ => 0
  else if parts.length = 3 then
    match parseIntList parts with
    | some [h, m, s] => ((h * 3600 + m * 60 + s : ℤ) : ℚ)
    | _ => 0
  else 0

/-- Claim C8: timecode conversion returns `h·3600 + m·60 + s + f/30` for the
four-field form and `h·3600 + m·60 + s` for the three-field form, and for
every malformed timecode string — wrong number of colon-separated fields, or
a field rejected by `int()` — it returns 0 without raising (the function is
total). -/
theorem claim_C8 (tc : List Char) :
    (∀ h m s f : ℤ, (tc.splitOn ':').length = 4 →
      parseIntList (tc.splitOn ':') = some [h, m, s, f] →
      timecode_to_seconds tc = ((h * 3600 + m * 60 + s : ℤ) : ℚ) + (f : ℚ) / 30) ∧
    (∀ h m s : ℤ, (tc.splitOn ':').length = 3 →
      parseIntList (tc.splitOn ':') = some [h, m, s] →
      timecode_to_seconds tc = ((h * 3600 + m * 60 + s : ℤ) : ℚ)) ∧
    ((tc.splitOn ':').length ≠ 4 → (tc.splitOn ':').length ≠ 3 →
      timecode_to_seconds tc = 0) ∧
    (parseIntList (tc.splitOn ':') = none → timecode_to_seconds tc = 0) := by
  refine ⟨?_, ?_, ?_, ?_⟩
  · intro h m s f hlen hp
    unfold timecode_to_seconds
    rw [if_pos hlen, hp]
  · intro h m s hlen hp
    unfold timecode_to_seconds
    rw [if_neg (by omega), if_pos hlen, hp]
  · intro h4 h3
    unfold timecode_to_seconds
    rw [if_neg h4, if_neg h3]
  · intro hp
    unfold timecode_to_seconds
    simp only [hp]
    by_cases h4 : (tc.splitOn ':').length = 4
    · simp [h4]
    · by_cases h3 : (tc.splitOn ':').length = 3 <;> simp [h3, h4]

/-- Witness instantiating C8 on the well-formed four-field timecode
`01:02:03:15` and on the malformed `xx:yy`. -/
theorem claim_C8_witness :
    timecode_to_seconds "01:02:03:15".toList =
      (((1 : ℤ) * 3600 + 2 * 60 + 3 : ℤ) : ℚ) + ((15 : ℤ) : ℚ) / 30 ∧
    timecode_to_seconds "xx:yy".toList = 0 := by
  constructor
  · exact (claim_C8 "01:02:03:15".toList).1 1 2 3 15 (by decide) (by decide)
  · exact (claim_C8 "xx:yy".toList).2.2.1 (by decide) (by decide)

/-! ### EDL cut-list parsing (src/yt-chat-to-video.py lines 164-216) -/

/-- The effect of one (stripped) line on `parse_file`'s loop state. -/
inductive EDLLine where
  | skip
  | event (seg : ℚ × ℚ)
  | clip (name : List Char)
deriving DecidableEq

/-- Python `line.split(':', 1)[1]`: everything after the first colon (callers
guard with `startswith('* FROM CLIP NAME:')`, so a colon exists; without one
the Python indexing would raise, modelled by the unreachable `[]` branches). -/
def afterFirstColon (l : List Char) : List Char :=
  match l.splitOn ':' with
  | [] => []
  | [_] => []
  | _ :: rest => List.intercalate [':'] rest

/-- Classification of one raw line by the loop body of `EDLParser.parse_file`
(src lines 174-214): blank lines and `M2` motion-effect lines are skipped; a
CMX3600 event line (at least 8 whitespace-separated fields, numeric id, `V`
track marker) yields a `(source_in, source_out)` pair, the timecode columns
shifting right by one when the transition code starts with `D` (dissolve) or
`W` (wipe); a `* FROM CLIP NAME:` comment yields the trailing clip name;
every other line is ignored. -/
def classifyLine (raw : List Char) : EDLLine :=
  let line := pyStrip raw
  if line = [] then .skip
  else if ("M2".toList).isPrefixOf line then .skip
  else
    let parts := pySplitWs line
    if 8 ≤ parts.length ∧ pyIsDigit (parts.getD 0 []) ∧ parts.getD 2 [] = "V".toList then
      let transition := parts.getD 3 []
      let srcInIdx : ℕ :=
        if ("D".toList).isPrefixOf transition ∨ ("W".toList).isPrefixOf transition then 5 else 4
      if srcInIdx + 1 < parts.length then
        .event (timecode_to_seconds (parts.getD srcInIdx []),
          timecode_to_seconds (parts.getD (srcInIdx + 1) []))
      else .skip
    else if ("* FROM CLIP NAME:".toList).isPrefixOf line then
      .clip (pyStrip (afterFirstColon line))
    else .skip

/-- Whether a clip name is retained for the requested target
(`target_clip_name is None or clip_name == target_clip_name`,
src line 212). -/
def matchesTarget (target : Option (List Char)) (name : List Char) : Prop :=
  target = none ∨ target = some name

instance (target : Option (List Char)) (name : List Char) :
    Decidable (matchesTarget target name) :=
  inferInstanceAs (Decidable (_ ∨ _))

/-- The accumulating loop of `parse_file` (src lines 174-216) over classified
lines: `last` is `last_event`; an event line overwrites it; a clip-name line
consumes it (appending the event exactly when the name matches). -/
def parseGo (target : Option (List Char)) :
    Option (ℚ × ℚ) → List EDLLine → List (ℚ × ℚ)
  | _, [] => []
  | last, line :: rest =>
    match line with
    | .skip => parseGo target last rest
    | .event e => parseGo target (some e) rest
    | .clip name =>
      match last with
      | some e =>
        if matchesTarget target name then e :: parseGo target none rest
        else parseGo target none rest
      | none => parseGo target none rest

/-- `EDLParser.parse_file` over the file's raw lines (reading the file and
splitting it into lines, src lines 171-173, is I/O outside the model). -/
def parse_file (target : Option (List Char)) (lines : List (List Char)) : List (ℚ × ℚ) :=
  parseGo target none (lines.map classifyLine)

/-- First significant (non-skipped) classified line. -/
def firstSig : List EDLLine → Option EDLLine
  | [] => none
  | .skip :: rest => firstSig rest
  | line :: _ => some line

/-- Whether a pending event gets emitted given what follows it: true exactly
when the next significant line is a clip-name comment matching the target. -/
def clipMatches (target : Option (List Char)) : Option EDLLine → Prop
  | some (.clip name) => matchesTarget target name
  | _ => False

instance (target : Option (List Char)) :
    (ol : Option EDLLine) → Decidable (clipMatches target ol)
  | some (.clip _) => inferInstanceAs (Decidable (matchesTarget _ _))
  | some .skip => .isFalse (fun h => h)
  | some (.event _) => .isFalse (fun h => h)
  | none => .isFalse (fun h => h)

/-- Reference restatement of the spec's association rule (spec §4.3): a cut
event is retained exactly when the next significant line after it is a
clip-name comment matching the target; retained events appear in file order;
an event not followed by such a comment (end of file, another cut event, or a
non-matching clip name first) is discarded. -/
def specAssociate (target : Option (List Char)) : List EDLLine → List (ℚ × ℚ)
  | [] => []
  | .event e :: rest =>
    if clipMatches target (firstSig rest) then e :: specAssociate target rest
    else specAssociate target rest
  | _ :: rest => specAssociate target rest

theorem clipMatches_event (target : Option (List Char)) (e : ℚ × ℚ) :
    clipMatches target (some (.event e)) ↔ False := Iff.rfl

theorem clipMatches_clip (target : Option (List Char)) (name : List Char) :
    clipMatches target (some (.clip name)) ↔ matchesTarget target name := Iff.rfl

/-- What a pending `last_event` contributes to the remaining output. -/
def pendingEmit (target : Option (List Char)) (last : Option (ℚ × ℚ))
    (rest : List EDLLine) : List (ℚ × ℚ) :=
  match last with
  | some e => if clipMatches target (firstSig rest) then [e] else []
  | none => []

theorem parseGo_eq_pendingEmit (target : Option (List Char)) :
    ∀ (ls : List EDLLine) (last : Option (ℚ × ℚ)),
      parseGo target last ls = pendingEmit target last ls ++ specAssociate target ls := by
  intro ls
  induction ls with
  | nil =>
    intro last
    cases last with
    | none => rfl
    | some e => rfl
  | cons line rest ih =>
    intro last
    cases line with
    | skip =>
      cases last with
      | none =>
        rw [parseGo, ih none]
        rfl
      | some e =>
        rw [parseGo, ih (some e)]
        rfl
    | event e =>
      rw [parseGo, ih (some e)]
      by_cases hc : clipMatches target (firstSig rest) <;>
        cases last <;>
          simp [pendingEmit, specAssociate, firstSig, clipMatches_event, hc]
    | clip name =>
      cases last with
      | none =>
        rw [parseGo, ih none]
        rfl
      | some e =>
        simp only [parseGo]
        by_cases hm : matchesTarget target name
        · rw [if_pos hm, ih none]
          simp [pendingEmit, specAssociate, firstSig, clipMatches_clip, hm]
        · rw [if_neg hm, ih none]
          simp [pendingEmit, specAssociate, firstSig, clipMatches_clip, hm]

/-- The concrete cut list of the claim: two `C`-transition cut events bound to
clip `A` (source ranges `[10, 20)` and `[120, 125)` seconds), one bound to
clip `B`, and one trailing event with no clip-name comment. -/
def edlExampleLines : List (List Char) :=
  ["TITLE: EXAMPLE".toList,
   "001  TAPE1 V  C        00:00:10 00:00:20 00:00:00 00:00:10".toList,
   "* FROM CLIP NAME: A".toList,
   "002  TAPE1 V  C        00:01:00 00:01:30 00:00:10 00:00:40".toList,
   "* FROM CLIP NAME: B".toList,
   "003  TAPE1 V  C        00:02:00 00:02:05 00:00:40 00:00:45".toList,
   "* FROM CLIP NAME: A".toList,
   "004  TAPE1 V  C        00:03:00 00:03:10 00:00:45 00:00:55".toList]

/-- Claim C7: parsing retains exactly the cut events whose next significant
line is a clip-name comment matching the target — in file order — and
discards cut events with no following clip-name comment; in particular the
document with two events for clip `A` and one for clip `B` parses under
target `A` to exactly the two `A` segments in file order. -/
theorem claim_C7 (target : Option (List Char)) (lines : List (List Char)) :
    parse_file target lines = specAssociate target (lines.map classifyLine) ∧
    parse_file (some "A".toList) edlExampleLines = [(10, 20), (120, 125)] := by
  constructor
  · unfold parse_file
    rw [parseGo_eq_pendingEmit target (lines.map classifyLine) none]
    rfl
  · with_unfolding_all decide

/-- Witness instantiating the universally quantified part of C7 on the
example document with target `B`. -/
theorem claim_C7_witness :
    parse_file (some "B".toList) edlExampleLines =
      specAssociate (some "B".toList) (edlExampleLines.map classifyLine) := by
  exact (claim_C7 (some "B".toList) edlExampleLines).1

/-! ### Asset-cache key derivation and cache resolution
(src/yt-chat-to-video.py lines 421-444) -/

/-- CPython `str.rfind(c)`: index of the last occurrence, or −1. -/
def rfindIdx : List Char → Char → ℤ
  | [], _ => -1
  | x :: xs, c =>
    if rfindIdx xs c ≥ 0 then rfindIdx xs c + 1 else if x = c then 0 else -1

/-- CPython `posixpath.splitext(p)[0]`, the stem kept by
`os.path.splitext(path)` at src line 423: when the last `'.'` comes after the
last `'/'` and at least one non-dot character of the basename precedes it
(leading dots are ignored), the extension `p[dotIndex:]` is stripped;
otherwise `p` is returned whole.  (On Windows `ntpath` additionally treats
`'\\'` as a separator; the URLs handled here contain none.) -/
def splitextStem (p : List Char) : List Char :=
  if rfindIdx p '/' < rfindIdx p '.' then
    if ((p.drop (rfindIdx p '/' + 1).toNat).take
        (rfindIdx p '.' - rfindIdx p '/' - 1).toNat).any (fun c => !(c == '.')) then
      p.take (rfindIdx p '.').toNat
    else p
  else p

/-- First index at which `pat` occurs as a contiguous run, or `none`
(Python `str.split(sep, 1)` locates the first occurrence of `sep`). -/
def findSubIdx (pat : List Char) : List Char → Option ℕ
  | [] => if pat.isEmpty then some 0 else none
  | x :: xs =>
    if pat.isPrefixOf (x :: xs) then some 0
    else (findSubIdx pat xs).map (fun i => i + 1)

/-- Python `no_extension.split('://', 1)[-1]` (src line 424): everything after
the first occurrence of `://`, or the whole string when absent. -/
def stripProtocol (l : List Char) : List Char :=
  match findSubIdx ("://".toList) l with
  | some i => l.drop (i + 3)
  | none => l

/-- Membership in the character class kept by
`re.sub(r'[^a-zA-Z0-9_-]', '_', s)` (src line 425). -/
def isSafeChar (c : Char) : Bool :=
  c.isAlpha || c.isDigit || c == '_' || c == '-'

def sanitizeChar (c : Char) : Char := if isSafeChar c then c else '_'

/-- `ChatRenderer.get_cached_image_key` (src lines 421-426): strip the
extension, then the protocol, then replace every unsafe character with `_`. -/
def get_cached_image_key (path : List Char) : List Char :=
  (stripProtocol (splitextStem path)).map sanitizeChar

/-- The facts about a cached PIL image that the claims mention: which URL was
fetched and the pixel size it was resized to (src lines 435-438). -/
structure CachedBitmap where
  srcUrl : List Char
  size : ℕ
deriving DecidableEq

/-- `ChatRenderer.get_image_from_cache` (src lines 428-444).  `self.cache` is
modelled as an association list keyed by the derived key; the network fetch
plus decode is the oracle `fetchOk` (any failure is caught, returns `None`,
and leaves the cache unchanged, src lines 443-444); on success the image is
resized to `size × size` and stored under the key.  The optional disk mirror
(src lines 440-441) adds no cache-visible state. -/
def get_image_from_cache (fetchOk : List Char → Bool)
    (cache : List (List Char × CachedBitmap)) (url : List Char) (size : ℕ) :
    Option CachedBitmap × List (List Char × CachedBitmap) :=
  let key := get_cached_image_key url
  match cache.lookup key with
  | some img => (some img, cache)
  | none =>
    if fetchOk url then (some ⟨url, size⟩, (key, ⟨url, size⟩) :: cache)
    else (none, cache)

/-- Final cache state after a further sequence of `get_image_from_cache`
calls, given as (url, size) pairs. -/
def applyResolves (fetchOk : List Char → Bool)
    (cache : List (List Char × CachedBitmap)) :
    List (List Char × ℕ) → List (List Char × CachedBitmap)
  | [] => cache
  | (url, size) :: rest =>
    applyResolves fetchOk (get_image_from_cache fetchOk cache url size).2 rest

theorem get_image_from_cache_hit (fetchOk : List Char → Bool)
    (cache : List (List Char × CachedBitmap)) (url : List Char) (size : ℕ)
    (img : CachedBitmap) (h : cache.lookup (get_cached_image_key url) = some img) :
    get_image_from_cache fetchOk cache url size = (some img, cache) := by
  simp [get_image_from_cache, h]

theorem get_image_from_cache_miss_ok (fetchOk : List Char → Bool)
    (cache : List (List Char × CachedBitmap)) (url : List Char) (size : ℕ)
    (h : cache.lookup (get_cached_image_key url) = none) (hf : fetchOk url = true) :
    get_image_from_cache fetchOk cache url size =
      (some ⟨url, size⟩, (get_cached_image_key url, ⟨url, size⟩) :: cache) := by
  simp [get_image_from_cache, h, hf]

theorem get_image_from_cache_miss_fail (fetchOk : List Char → Bool)
    (cache : List (List Char × CachedBitmap)) (url : List Char) (size : ℕ)
    (h : cache.lookup (get_cached_image_key url) = none) (hf : fetchOk url = false) :
    get_image_from_cache fetchOk cache url size = (none, cache) := by
  simp [get_image_from_cache, h, hf]

/-- A populated cache entry survives any later resolve: a hit leaves the cache
unchanged and a miss only ever prepends a key that was absent. -/
theorem lookup_get_image_preserved (fetchOk : List Char → Bool)
    (cache : List (List Char × CachedBitmap)) (url2 : List Char) (size2 : ℕ)
    (k : List Char) (b : CachedBitmap) (hk : cache.lookup k = some b) :
    ((get_image_from_cache fetchOk cache url2 size2).2).lookup k = some b := by
  cases hcase : cache.lookup (get_cached_image_key url2) with
  | some img =>
    rw [get_image_from_cache_hit fetchOk cache url2 size2 img hcase]
    exact hk
  | none =>
    by_cases hf : fetchOk url2
    · have hne : k ≠ get_cached_image_key url2 := by
        intro h
        rw [h, hcase] at hk
        cases hk
      have hbeq : (k == get_cached_image_key url2) = false := beq_eq_false_iff_ne.mpr hne
      rw [get_image_from_cache_miss_ok fetchOk cache url2 size2 hcase hf]
      simp only [List.lookup, hbeq]
      exact hk
    · rw [get_image_from_cache_miss_fail fetchOk cache url2 size2 hcase
        (Bool.eq_false_iff.mpr hf)]
      exact hk

theorem lookup_applyResolves_preserved (fetchOk : List Char → Bool)
    (k : List Char) (b : CachedBitmap) :
    ∀ (ops : List (List Char × ℕ)) (cache : List (List Char × CachedBitmap)),
      cache.lookup k = some b →
      (applyResolves fetchOk cache ops).lookup k = some b := by
  intro ops
  induction ops with
  | nil => intro cache hk; exact hk
  | cons op rest ih =>
    intro cache hk
    obtain ⟨url, size⟩ := op
    exact ih _ (lookup_get_image_preserved fetchOk cache url size k b hk)

/-- Claim C3: if the cache holds no entry for a URL's derived key and the
fetch succeeds, resolving at size `s1` stores the bitmap resized to `s1`, the
entry survives arbitrarily many further resolves, and a later resolve of the
same URL at any `s2 ≠ s1` returns that cached bitmap — whose pixel size is
`s1`, not `s2` (the hit is by URL-derived key only; first-populated size
wins). -/
theorem claim_C3 (fetchOk : List Char → Bool)
    (c0 : List (List Char × CachedBitmap)) (url : List Char) (s1 s2 : ℕ)
    (hs : s1 ≠ s2) (hf : fetchOk url = true)
    (hmiss : c0.lookup (get_cached_image_key url) = none) :
    ((get_image_from_cache fetchOk c0 url s1).1 = some ⟨url, s1⟩) ∧
    (∀ ops : List (List Char × ℕ),
      (applyResolves fetchOk (get_image_from_cache fetchOk c0 url s1).2 ops).lookup
        (get_cached_image_key url) = some ⟨url, s1⟩) ∧
    (∀ ops : List (List Char × ℕ),
      (get_image_from_cache fetchOk
        (applyResolves fetchOk (get_image_from_cache fetchOk c0 url s1).2 ops) url s2).1 =
        some ⟨url, s1⟩) ∧
    (⟨url, s1⟩ : CachedBitmap).size ≠ s2 := by
  have hc1 : ((get_image_from_cache fetchOk c0 url s1).2).lookup
      (get_cached_image_key url) = some ⟨url, s1⟩ := by
    rw [get_image_from_cache_miss_ok fetchOk c0 url s1 hmiss hf]
    simp [List.lookup]
  have hlook : ∀ ops : List (List Char × ℕ),
      (applyResolves fetchOk (get_image_from_cache fetchOk c0 url s1).2 ops).lookup
        (get_cached_image_key url) = some ⟨url, s1⟩ :=
    fun ops => lookup_applyResolves_preserved fetchOk _ _ ops _ hc1
  refine ⟨?_, hlook, ?_, hs⟩
  · rw [get_image_from_cache_miss_ok fetchOk c0 url s1 hmiss hf]
  · intro ops
    rw [get_image_from_cache_hit fetchOk _ url s2 _ (hlook ops)]

/-- Witness instantiating C3: a fresh cache, a URL first resolved at 24 px,
then re-resolved at 16 px — the 24 px bitmap is returned. -/
theorem claim_C3_witness :
    (get_image_from_cache (fun _ => true)
      (applyResolves (fun _ => true)
        (get_image_from_cache (fun _ => true) [] "http://e/a.png".toList 24).2 [])
      "http://e/a.png".toList 16).1 = some ⟨"http://e/a.png".toList, 24⟩ :=
  (claim_C3 (fun _ => true) [] "http://e/a.png".toList 24 16 (by decide) rfl rfl).2.2.1 []

/-! ### Cache-key collisions (claim C9) -/

/-- The claim's per-character relation: equal characters, or characters that
are both replaced by the `_` substitution. -/
def claimReplacedPair (c1 c2 : Char) : Bool :=
  c1 == c2 || (!isSafeChar c1 && !isSafeChar c2)

/-- Two URLs "differ only in characters that are both replaced": same length
and the claim's relation at every position. -/
def claimPairwise : List Char → List Char → Bool
  | [], [] => true
  | c1 :: l1, c2 :: l2 => claimReplacedPair c1 c2 && claimPairwise l1 l2
  | _, _ => false

/-- Claim C9 as stated is false on the code: `http://e/a.x` and `http://e/a?x`
are distinct URLs differing only at one position, in characters (`.` versus
`?`) that are both replaced by the sanitiser — yet their derived keys differ
(`e_a` versus `e_a_x`), because extension stripping runs before character
replacement and only the first URL loses an extension. -/
theorem claim_C9_counterexample :
    "http://e/a.x".toList ≠ "http://e/a?x".toList ∧
    claimPairwise "http://e/a.x".toList "http://e/a?x".toList = true ∧
    get_cached_image_key "http://e/a.x".toList ≠ get_cached_image_key "http://e/a?x".toList := by
  refine ⟨by decide, by decide, by decide⟩

/-- Strengthened per-character relation under which key equality does hold:
equal characters, or characters that are both replaced and are none of `'.'`,
`'/'`, `':'` — the three characters steering extension and protocol
stripping, which run before replacement. -/
def safeReplacedPair (c1 c2 : Char) : Prop :=
  c1 = c2 ∨ (isSafeChar c1 = false ∧ isSafeChar c2 = false ∧
    c1 ≠ '.' ∧ c1 ≠ '/' ∧ c1 ≠ ':' ∧ c2 ≠ '.' ∧ c2 ≠ '/' ∧ c2 ≠ ':')

instance (c1 c2 : Char) : Decidable (safeReplacedPair c1 c2) := by
  unfold safeReplacedPair
  infer_instance

instance instDecidableForall2Chars (R : Char → Char → Prop) [h : DecidableRel R] :
    (l1 l2 : List Char) → Decidable (List.Forall₂ R l1 l2)
  | [], [] => .isTrue .nil
  | [], _ :: _ => .isFalse fun hf => by cases hf
  | _ :: _, [] => .isFalse fun hf => by cases hf
  | a :: l1, b :: l2 =>
    match h a b, instDecidableForall2Chars R l1 l2 with
    | .isTrue hab, .isTrue ht => .isTrue (.cons hab ht)
    | .isFalse hab, _ => .isFalse fun hf => by
        cases hf with
        | cons h1 h2 => exact hab h1
    | _, .isFalse ht => .isFalse fun hf => by
        cases hf with
        | cons h1 h2 => exact ht h2

theorem safeReplacedPair_mem_iff (c1 c2 c : Char) (h : safeReplacedPair c1 c2)
    (hc : c = '.' ∨ c = '/' ∨ c = ':') : c1 = c ↔ c2 = c := by
  rcases h with rfl | ⟨-, -, h1d, h1s, h1c, h2d, h2s, h2c⟩
  · exact Iff.rfl
  · rcases hc with rfl | rfl | rfl
    · exact iff_of_false h1d h2d
    · exact iff_of_false h1s h2s
    · exact iff_of_false h1c h2c

theorem rfindIdx_forall2 (c : Char) (hc : c = '.' ∨ c = '/' ∨ c = ':')
    {l1 l2 : List Char} (h : List.Forall₂ safeReplacedPair l1 l2) :
    rfindIdx l1 c = rfindIdx l2 c := by
  induction h with
  | nil => rfl
  | @cons a b t1 t2 hab ht ih =>
    rw [rfindIdx, rfindIdx, ih]
    by_cases hr : rfindIdx t2 c ≥ 0
    · rw [if_pos hr, if_pos hr]
    · rw [if_neg hr, if_neg hr]
      by_cases hb : b = c
      · rw [if_pos hb, if_pos ((safeReplacedPair_mem_iff a b c hab hc).mpr hb)]
      · rw [if_neg hb, if_neg (fun h2 => hb ((safeReplacedPair_mem_iff a b c hab hc).mp h2))]

theorem any_nonDot_forall2 {l1 l2 : List Char}
    (h : List.Forall₂ safeReplacedPair l1 l2) :
    l1.any (fun c => !(c == '.')) = l2.any (fun c => !(c == '.')) := by
  induction h with
  | nil => rfl
  | @cons a b t1 t2 hab ht ih =>
    rw [List.any_cons, List.any_cons, ih]
    have hiff := safeReplacedPair_mem_iff a b '.' hab (Or.inl rfl)
    by_cases ha : a = '.'
    · rw [ha, hiff.mp ha]
    · have hbne : ¬ b = '.' := fun hb => ha (hiff.mpr hb)
      rw [beq_eq_false_iff_ne.mpr ha, beq_eq_false_iff_ne.mpr hbne]

theorem isPrefixOf_special_forall2 (pat : List Char)
    (hpat : ∀ c ∈ pat, c = '.' ∨ c = '/' ∨ c = ':') :
    ∀ {l1 l2 : List Char}, List.Forall₂ safeReplacedPair l1 l2 →
      pat.isPrefixOf l1 = pat.isPrefixOf l2 := by
  induction pat with
  | nil => intro l1 l2 _; simp
  | cons p ps ih =>
    intro l1 l2 h
    cases h with
    | nil => rfl
    | @cons a b t1 t2 hab ht =>
      have hiff := safeReplacedPair_mem_iff a b p hab (hpat p (List.mem_cons_self _ _))
      have hpa : (p == a) = (p == b) := by
        by_cases hap : a = p
        · have hbp : b = p := hiff.mp hap
          rw [hap, hbp]
        · have hbp : ¬ b = p := fun hb => hap (hiff.mpr hb)
          have h1 : (p == a) = false := by
            rw [beq_eq_false_iff_ne]
            exact fun he => hap he.symm
          have h2 : (p == b) = false := by
            rw [beq_eq_false_iff_ne]
            exact fun he => hbp he.symm
          rw [h1, h2]
      rw [List.isPrefixOf_cons₂, List.isPrefixOf_cons₂, hpa,
        ih (fun c hc => hpat c (List.mem_cons_of_mem _ hc)) ht]

theorem findSubIdx_special_forall2 (pat : List Char)
    (hpat : ∀ c ∈ pat, c = '.' ∨ c = '/' ∨ c = ':')
    {l1 l2 : List Char} (h : List.Forall₂ safeReplacedPair l1 l2) :
    findSubIdx pat l1 = findSubIdx pat l2 := by
  induction h with
  | nil => rfl
  | @cons a b t1 t2 hab ht ih =>
    rw [findSubIdx, findSubIdx,
      isPrefixOf_special_forall2 pat hpat (List.Forall₂.cons hab ht), ih]

theorem map_sanitize_forall2 {l1 l2 : List Char}
    (h : List.Forall₂ safeReplacedPair l1 l2) :
    l1.map sanitizeChar = l2.map sanitizeChar := by
  induction h with
  | nil => rfl
  | @cons a b t1 t2 hab ht ih =>
    rw [List.map_cons, List.map_cons, ih]
    rcases hab with rfl | ⟨ha, hb, -, -, -, -, -, -⟩
    · rfl
    · simp [sanitizeChar, ha, hb]

theorem splitextStem_forall2 {l1 l2 : List Char}
    (h : List.Forall₂ safeReplacedPair l1 l2) :
    List.Forall₂ safeReplacedPair (splitextStem l1) (splitextStem l2) := by
  have hsep := rfindIdx_forall2 '/' (Or.inr (Or.inl rfl)) h
  have hdot := rfindIdx_forall2 '.' (Or.inl rfl) h
  have hslice : List.Forall₂ safeReplacedPair
      ((l1.drop (rfindIdx l2 '/' + 1).toNat).take (rfindIdx l2 '.' - rfindIdx l2 '/' - 1).toNat)
      ((l2.drop (rfindIdx l2 '/' + 1).toNat).take
        (rfindIdx l2 '.' - rfindIdx l2 '/' - 1).toNat) :=
    List.forall₂_take _ (List.forall₂_drop _ h)
  have hany := any_nonDot_forall2 hslice
  unfold splitextStem
  rw [hsep, hdot, hany]
  by_cases hlt : rfindIdx l2 '/' < rfindIdx l2 '.'
  · rw [if_pos hlt, if_pos hlt]
    by_cases hspl : ((l2.drop (rfindIdx l2 '/' + 1).toNat).take
        (rfindIdx l2 '.' - rfindIdx l2 '/' - 1).toNat).any (fun c => !(c == '.')) = true
    · rw [if_pos hspl, if_pos hspl]
      exact List.forall₂_take _ h
    · rw [if_neg hspl, if_neg hspl]
      exact h
  · rw [if_neg hlt, if_neg hlt]
    exact h

theorem stripProtocol_forall2 {l1 l2 : List Char}
    (h : List.Forall₂ safeReplacedPair l1 l2) :
    List.Forall₂ safeReplacedPair (stripProtocol l1) (stripProtocol l2) := by
  have hfind := findSubIdx_special_forall2 ("://".toList) (by decide) h
  unfold stripProtocol
  rw [hfind]
  cases hcase : findSubIdx ("://".toList) l2 with
  | none => simpa using h
  | some i =>
    simp only []
    exact List.forall₂_drop _ h

theorem key_eq_of_forall2 {l1 l2 : List Char}
    (h : List.Forall₂ safeReplacedPair l1 l2) :
    get_cached_image_key l1 = get_cached_image_key l2 :=
  map_sanitize_forall2 (stripProtocol_forall2 (splitextStem_forall2 h))

/-- Claim C9 (amended): the key derivation strips the extension first, then
the protocol, then replaces unsafe characters; two URLs whose extension-
stripped stems coincide (in particular URLs differing only in their final
dot-extension) derive equal keys; two URLs differing only in characters that
are both replaced *and are none of `'.'`, `'/'`, `':'`* (the characters that
steer extension/protocol stripping) derive equal keys; and when two URLs
share a key, resolving the second one after the first populated the cache
returns the bitmap fetched for the first URL instead of fetching the
second. -/
theorem claim_C9_amended :
    (∀ u : List Char,
      get_cached_image_key u = (stripProtocol (splitextStem u)).map sanitizeChar) ∧
    (∀ u1 u2 : List Char, splitextStem u1 = splitextStem u2 →
      get_cached_image_key u1 = get_cached_image_key u2) ∧
    (∀ u1 u2 : List Char, List.Forall₂ safeReplacedPair u1 u2 →
      get_cached_image_key u1 = get_cached_image_key u2) ∧
    (∀ (fetchOk : List Char → Bool) (c0 : List (List Char × CachedBitmap))
      (u1 u2 : List Char) (s1 s2 : ℕ),
      get_cached_image_key u1 = get_cached_image_key u2 →
      fetchOk u1 = true →
      c0.lookup (get_cached_image_key u1) = none →
      (get_image_from_cache fetchOk (get_image_from_cache fetchOk c0 u1 s1).2 u2 s2).1 =
        some ⟨u1, s1⟩) := by
  refine ⟨fun u => rfl, ?_, fun u1 u2 h => key_eq_of_forall2 h, ?_⟩
  · intro u1 u2 hstem
    unfold get_cached_image_key
    rw [hstem]
  · intro fetchOk c0 u1 u2 s1 s2 hkey hf hmiss
    have hl : ((get_image_from_cache fetchOk c0 u1 s1).2).lookup
        (get_cached_image_key u2) = some ⟨u1, s1⟩ := by
      rw [get_image_from_cache_miss_ok fetchOk c0 u1 s1 hmiss hf, ← hkey]
      simp [List.lookup]
    rw [get_image_from_cache_hit fetchOk _ u2 s2 _ hl]

/-- Witness instantiating the amended C9: extension-only difference
(`.png` vs `.jpg`) and replaced-character difference (`?` vs `&`) both derive
equal keys, and a key-sharing second URL is served the first URL's bitmap. -/
theorem claim_C9_amended_witness :
    get_cached_image_key "http://ex.com/img.png".toList =
      get_cached_image_key "http://ex.com/img.jpg".toList ∧
    get_cached_image_key "http://e/a?b".toList =
      get_cached_image_key "http://e/a&b".toList ∧
    (get_image_from_cache (fun _ => true)
      (get_image_from_cache (fun _ => true) [] "http://ex.com/img.png".toList 24).2
      "http://ex.com/img.jpg".toList 16).1 =
      some ⟨"http://ex.com/img.png".toList, 24⟩ := by
  refine ⟨claim_C9_amended.2.1 _ _ (by decide), claim_C9_amended.2.2.1 _ _ (by decide), ?_⟩
  exact claim_C9_amended.2.2.2 (fun _ => true) [] _ _ 24 16
    (claim_C9_amended.2.1 _ _ (by decide)) rfl rfl

/-! ### Asset prefetch in `load_messages`
(src/yt-chat-to-video.py lines 403-409 and 446-475) -/

/-- A normalized chat message tuple
`(time_ms, avatar_url, author, runs, author_role)` (src line 669); a run is
`(type, content)` with type 1 an emoji thumbnail URL (src lines 661-667). -/
structure ChatMessage where
  timeMs : ℚ
  avatarUrl : List Char
  author : List Char
  runs : List (ℕ × List Char)
  role : List Char

/-- `ChatRenderer.__init__` (src lines 403-409) unconditionally runs
`self._assets_loaded = False`, so by the time any `load_messages` call
executes, `hasattr(self, '_assets_loaded')` is `True`. -/
def hasattrAssetsLoadedAfterInit : Bool := true

/-- The (url, pixel-size) pairs the prefetch body of `load_messages`
(src lines 464-474) would request: every message's avatar at the legacy
global `self.style.avatar_size` (src line 467), then every emoji run's
thumbnail at the legacy global `self.style.emoji_size` (src line 474) —
never at the per-role sizes. -/
def load_messages_requests_body (skipAvatars skipEmojis : Bool)
    (avatarSizeGlobal emojiSizeGlobal : ℕ) (msgs : List ChatMessage) :
    List (List Char × ℕ) :=
  (if skipAvatars then [] else msgs.map (fun m => (m.avatarUrl, avatarSizeGlobal))) ++
  (if skipEmojis then []
   else msgs.flatMap (fun m =>
     (m.runs.filter (fun r => r.1 == 1)).map (fun r => (r.2, emojiSizeGlobal))))

/-- What `load_messages` actually requests: the body above, under the guard
`if not hasattr(self, '_assets_loaded')` of src line 463. -/
def load_messages_requests (skipAvatars skipEmojis : Bool)
    (avatarSizeGlobal emojiSizeGlobal : ℕ) (msgs : List ChatMessage) :
    List (List Char × ℕ) :=
  if hasattrAssetsLoadedAfterInit = false then
    load_messages_requests_body skipAvatars skipEmojis avatarSizeGlobal emojiSizeGlobal msgs
  else []

/-- Claim C10 is contradicted by the code as written: because `__init__`
creates the `_assets_loaded` attribute, the `hasattr` guard at src line 463
is always satisfied and the prefetch body is dead — `load_messages` requests
no avatar and no emoji whatsoever, for any flags, sizes and message list,
contrary to the claim and to the code's own comment `# Downloads assets` at
the call site (src line 712).  The second conjunct evaluates the guarded
body at the failing input (one message with an avatar and one emoji run,
neither skip flag set): had the guard tested `self._assets_loaded` itself as
the surrounding code intends, exactly these global-size requests would have
been issued. -/
theorem claim_C10_dead_prefetch (skipAvatars skipEmojis : Bool)
    (avatarSizeGlobal emojiSizeGlobal : ℕ) (msgs : List ChatMessage) :
    load_messages_requests skipAvatars skipEmojis avatarSizeGlobal emojiSizeGlobal msgs = [] ∧
    load_messages_requests_body false false 24 16
      [⟨5000, "http://e/a.png".toList, "alice".toList,
        [(1, "http://e/emoji.png".toList)], "member".toList⟩] =
      [("http://e/a.png".toList, 24), ("http://e/emoji.png".toList, 16)] := by
  constructor
  · unfold load_messages_requests hasattrAssetsLoadedAfterInit
    simp
  · rfl

end YtChat
